import Mathlib

/-!
Verification of the nRF52 RAM retention library
(`src/ram_retention/ram_retention_utils.c`).

The development shallowly embeds the two halves of the library:

* the integrity guard (`ram_retained_update` / `ram_retained_validate`),
  operating on byte buffers modelled as `List Nat` with every element a
  byte value, together with the CRC-32/ISO-HDLC checksum it relies on;
* the section mapper / retention controller (`ram_range_retain`),
  operating on 32-bit addresses modelled as `Nat`, with the wrapping
  32-bit arithmetic of `uintptr_t` made explicit via `% 2^32`.

Hardware calls (`nrf_power_rampower_mask_on` / `..._off`) are recorded as
the list of `(block, section_mask, enable)` argument triples they would
receive, in call order.
-/

set_option maxRecDepth 100000

namespace RamRet

/-! ## CRC-32 (ISO-HDLC), as used through Zephyr's `crc32_ieee` -/

/-- Modelled from the spec: Zephyr's `crc32_ieee` (not part of this
repository) implements CRC-32/ISO-HDLC: reflected polynomial
`0xEDB88320`, initial value `0xFFFFFFFF`, final xor `0xFFFFFFFF`,
bytes processed least-significant bit first.  This is one bit step of
the reflected algorithm. -/
def crcBit (c : Nat) : Nat :=
  if c &&& 1 = 1 then (c >>> 1) ^^^ 0xEDB88320 else c >>> 1

/-- One byte step: xor the byte into the low bits of the running
register, then perform eight bit steps. -/
def crcByte (c b : Nat) : Nat := crcBit^[8] (c ^^^ b)

/-- Run the CRC register over a list of bytes. -/
def crcRun (c : Nat) (data : List Nat) : Nat := data.foldl crcByte c

/-- Modelled from the spec: `crc32_ieee data len` over a byte buffer —
initial register `0xFFFFFFFF`, final complement. -/
def crc32_ieee (data : List Nat) : Nat := crcRun 0xFFFFFFFF data ^^^ 0xFFFFFFFF

/-- The four bytes of a 32-bit word, least significant byte first:
the little-endian store performed by `sys_cpu_to_le32` plus the
`uint32_t` write in `ram_retained_update`. -/
def leBytes (c : Nat) : List Nat :=
  [c &&& 255, (c >>> 8) &&& 255, (c >>> 16) &&& 255, (c >>> 24) &&& 255]

/-- The CRC-32/ISO-HDLC residue constant used by `ram_retained_validate`. -/
def residue : Nat := 0x2144df1c

/-! ### Linearity of the CRC register over xor -/

theorem shiftRight_xor_distrib (a b n : Nat) :
    (a ^^^ b) >>> n = (a >>> n) ^^^ (b >>> n) := by
  apply Nat.eq_of_testBit_eq
  intro i
  simp [Nat.testBit_shiftRight, Nat.testBit_xor]

theorem xor_left_comm (a b c : Nat) : a ^^^ (b ^^^ c) = b ^^^ (a ^^^ c) := by
  rw [← Nat.xor_assoc, Nat.xor_comm a b, Nat.xor_assoc]

theorem xor_cancel_left (a b : Nat) : a ^^^ (a ^^^ b) = b := by
  rw [← Nat.xor_assoc, Nat.xor_self, Nat.zero_xor]

theorem crcBit_xor (a b : Nat) : crcBit (a ^^^ b) = crcBit a ^^^ crcBit b := by
  have hand : (a ^^^ b) &&& 1 = (a &&& 1) ^^^ (b &&& 1) := Nat.and_xor_distrib_right
  have hs := shiftRight_xor_distrib a b 1
  unfold crcBit
  rw [hand, Nat.and_one_is_mod a, Nat.and_one_is_mod b]
  rcases Nat.mod_two_eq_zero_or_one a with ha2 | ha2 <;>
    rcases Nat.mod_two_eq_zero_or_one b with hb2 | hb2 <;>
    rw [ha2, hb2] <;>
    simp [hs, Nat.xor_assoc, Nat.xor_comm, xor_left_comm, Nat.xor_self,
      Nat.xor_zero, Nat.zero_xor, xor_cancel_left]

theorem crcBitIter_xor (k a b : Nat) :
    crcBit^[k] (a ^^^ b) = crcBit^[k] a ^^^ crcBit^[k] b := by
  induction k generalizing a b with
  | zero => rfl
  | succ k ih =>
    rw [Function.iterate_succ_apply, Function.iterate_succ_apply,
      Function.iterate_succ_apply, crcBit_xor, ih]

theorem crcByte_xor (a b x y : Nat) :
    crcByte (a ^^^ b) (x ^^^ y) = crcByte a x ^^^ crcByte b y := by
  unfold crcByte
  rw [← crcBitIter_xor]
  congr 1
  simp [Nat.xor_assoc, Nat.xor_comm, xor_left_comm]

/-! ### The register bound: every state stays below `2^32` -/

theorem crcBit_lt (c : Nat) (h : c < 2 ^ 32) : crcBit c < 2 ^ 32 := by
  have hshift : c >>> 1 < 2 ^ 32 :=
    Nat.lt_of_le_of_lt (by rw [Nat.shiftRight_eq_div_pow]; exact Nat.div_le_self c 2) h
  unfold crcBit
  split
  · exact Nat.xor_lt_two_pow hshift (by decide)
  · exact hshift

theorem crcBitIter_lt (k c : Nat) (h : c < 2 ^ 32) : crcBit^[k] c < 2 ^ 32 := by
  induction k generalizing c with
  | zero => exact h
  | succ k ih => rw [Function.iterate_succ_apply]; exact ih _ (crcBit_lt c h)

theorem crcByte_lt (c b : Nat) (hc : c < 2 ^ 32) (hb : b < 2 ^ 32) :
    crcByte c b < 2 ^ 32 :=
  crcBitIter_lt 8 _ (Nat.xor_lt_two_pow hc hb)

theorem crcRun_lt : ∀ (data : List Nat) (c : Nat), c < 2 ^ 32 →
    (∀ b ∈ data, b < 256) → crcRun c data < 2 ^ 32
  | [], _, hc, _ => hc
  | b :: t, c, hc, hdata =>
    crcRun_lt t (crcByte c b)
      (crcByte_lt c b hc
        (Nat.lt_of_lt_of_le (hdata b (List.mem_cons_self b t)) (by decide)))
      (fun x hx => hdata x (List.mem_cons_of_mem b hx))

/-! ### Feeding the register its own little-endian bytes drives it to a shift -/

theorem crcBit_even (c : Nat) (h : c &&& 1 = 0) : crcBit c = c >>> 1 := by
  unfold crcBit
  rw [h]
  simp

theorem crcBit_shiftLeft (y k : Nat) : crcBit (y <<< (k + 1)) = y <<< k := by
  have heven : (y <<< (k + 1)) &&& 1 = 0 := by
    rw [Nat.and_one_is_mod, Nat.shiftLeft_eq, Nat.pow_succ, ← Nat.mul_assoc]
    exact Nat.mul_mod_left _ 2
  rw [crcBit_even _ heven, Nat.shiftLeft_eq, Nat.shiftLeft_eq, Nat.pow_succ,
    ← Nat.mul_assoc, Nat.shiftRight_eq_div_pow, pow_one]
  exact Nat.mul_div_cancel _ (by decide)

theorem crcBitIter_shiftLeft : ∀ (k y : Nat), crcBit^[k] (y <<< k) = y
  | 0, y => by rw [Nat.shiftLeft_zero]; rfl
  | k + 1, y => by
    rw [Function.iterate_succ_apply, crcBit_shiftLeft]
    exact crcBitIter_shiftLeft k y

theorem crcByte_self_low (c : Nat) : crcByte c (c &&& 255) = c >>> 8 := by
  have h : c ^^^ (c &&& 255) = (c >>> 8) <<< 8 := by
    apply Nat.eq_of_testBit_eq
    intro i
    have h255 : (255 : Nat) = 2 ^ 8 - 1 := by norm_num
    rw [Nat.testBit_xor, Nat.testBit_and, h255, Nat.testBit_two_pow_sub_one,
      Nat.testBit_shiftLeft, Nat.testBit_shiftRight]
    rcases Nat.lt_or_ge i 8 with hi | hi
    · have h8 : ¬ 8 ≤ i := by omega
      simp [hi, h8]
    · have h8 : ¬ i < 8 := by omega
      have hidx : 8 + (i - 8) = i := by omega
      simp [h8, hi, hidx]
  unfold crcByte
  rw [h]
  exact crcBitIter_shiftLeft 8 (c >>> 8)

theorem crcRun_leBytes_self (s : Nat) (h : s < 2 ^ 32) : crcRun s (leBytes s) = 0 := by
  have h8 : ∀ t : Nat, t >>> 8 >>> 8 = t >>> 16 := fun t => by
    rw [← Nat.shiftRight_add]
  have h16 : ∀ t : Nat, t >>> 16 >>> 8 = t >>> 24 := fun t => by
    rw [← Nat.shiftRight_add]
  have h24 : s >>> 24 >>> 8 = 0 := by
    rw [← Nat.shiftRight_add, Nat.shiftRight_eq_div_pow]
    apply Nat.div_eq_of_lt
    calc s < 2 ^ 32 := h
    _ ≤ 2 ^ (24 + 8) := by norm_num
  show crcByte (crcByte (crcByte (crcByte s (s &&& 255)) (s >>> 8 &&& 255))
    (s >>> 16 &&& 255)) (s >>> 24 &&& 255) = 0
  rw [crcByte_self_low, crcByte_self_low, h8, crcByte_self_low, h16,
    crcByte_self_low, h24]

theorem crcRun_append (c : Nat) (xs ys : List Nat) :
    crcRun c (xs ++ ys) = crcRun (crcRun c xs) ys :=
  List.foldl_append crcByte c xs ys

theorem crcRun_leBytes_xor (a b x y : Nat) :
    crcRun (a ^^^ b) (leBytes (x ^^^ y)) =
      crcRun a (leBytes x) ^^^ crcRun b (leBytes y) := by
  simp only [crcRun, leBytes, List.foldl, Nat.and_xor_distrib_right,
    shiftRight_xor_distrib, crcByte_xor]

theorem crcRun_leBytes_compl (s : Nat) (h : s < 2 ^ 32) :
    crcRun s (leBytes (s ^^^ 0xFFFFFFFF)) = 0xDEBB20E3 := by
  have hx := crcRun_leBytes_xor s 0 s 0xFFFFFFFF
  rw [Nat.xor_zero] at hx
  rw [hx, crcRun_leBytes_self s h, Nat.zero_xor]
  decide

/-- The CRC residue property: recomputing the CRC over a message with its
own little-endian CRC appended yields the fixed constant `0x2144DF1C`. -/
theorem crc32_append_self (m : List Nat) (hm : ∀ b ∈ m, b < 256) :
    crc32_ieee (m ++ leBytes (crc32_ieee m)) = residue := by
  have hs : crcRun 0xFFFFFFFF m < 2 ^ 32 := crcRun_lt m _ (by decide) hm
  show crcRun 0xFFFFFFFF (m ++ leBytes (crcRun 0xFFFFFFFF m ^^^ 0xFFFFFFFF)) ^^^
    0xFFFFFFFF = residue
  rw [crcRun_append, crcRun_leBytes_compl _ hs]
  decide

/-! ## The integrity guard: `ram_retained_update` / `ram_retained_validate`

A retained record is its byte image, `buf : List Nat` (each element one
byte).  `ram_retained_validate` additionally receives the record size,
the crc offset and the crc size, exactly as the C function does.  The
`ram_range_retain` call it performs is recorded through the `(length,
enable)` arguments it would pass (the record's base address is abstracted
away by the buffer model). -/

/-- `ram_retained_update`: compute `crc32_ieee` over the first
`a_retained_crc_offset` bytes and store the result little-endian at that
offset (`sys_cpu_to_le32` is the identity on the little-endian nRF52). -/
def ram_retained_update (buf : List Nat) (crcOffset : Nat) : List Nat :=
  buf.take crcOffset ++ leBytes (crc32_ieee (buf.take crcOffset)) ++
    buf.drop (crcOffset + 4)

/-- The observable outcome of one `ram_retained_validate` call: the
returned flag, the buffer afterwards, and the `(len, enable)` arguments
of the `ram_range_retain` call it issues before returning. -/
structure ValidateResult where
  valid : Bool
  buf : List Nat
  retainLen : Nat
  retainEnable : Bool
  deriving DecidableEq

/-- `ram_retained_validate`: CRC over the first
`crcOffset + sizeofCrc` bytes, compared against the residue; on mismatch
the whole `size`-byte record is `memset` to zero; retention is re-armed
unconditionally with length `crcOffset + sizeofCrc`. -/
def ram_retained_validate (buf : List Nat) (size crcOffset sizeofCrc : Nat) :
    ValidateResult :=
  let checked := crcOffset + sizeofCrc
  let crc := crc32_ieee (buf.take checked)
  let valid : Bool := crc == residue
  let buf' := if valid then buf else List.replicate size 0
  ⟨valid, buf', checked, true⟩

/-- `RR_Init_Variable_Ram_Retention` just forwards to
`ram_retained_validate` and returns its flag. -/
def RR_Init_Variable_Ram_Retention (buf : List Nat)
    (size crcOffset sizeofCrc : Nat) : Bool :=
  (ram_retained_validate buf size crcOffset sizeofCrc).valid

/-! ## The section mapper / retention controller: `ram_range_retain`

Addresses are 32-bit (`uintptr_t` on nRF52); arithmetic that can wrap is
taken `% 2^32`.  `SRAM_BEGIN` / `SRAM_END` come from the devicetree, so
they are parameters here. -/

def SMALL_SECTION_SIZE : Nat := 4096

def SMALL_SECTIONS_PER_BLOCK : Nat := 2

def SMALL_BLOCK_SIZE : Nat := SMALL_SECTIONS_PER_BLOCK * SMALL_SECTION_SIZE

def SMALL_BLOCK_COUNT : Nat := 8

def SMALL_SECTION_SPAN : Nat := SMALL_BLOCK_COUNT * SMALL_BLOCK_SIZE

def LARGE_SECTION_SIZE : Nat := 32768

/-- `2^32`, the modulus of `uintptr_t` / `uint32_t` arithmetic. -/
def W32 : Nat := 4294967296

/-- 32-bit unsigned subtraction, as `SRAM_END - len` is computed in C. -/
def wsub32 (a b : Nat) : Nat := (a + (W32 - b % W32)) % W32

/-- One iteration of the do-while loop body of `ram_range_retain`: from
the current address compute the `(block, section_mask)` arguments of the
hardware call and the next address.  `block` is a `uint8_t` (hence
`% 256`); the mask is `POWER_RAM_POWERSET_S0RETENTION_On` (1) shifted by
`section + POWER_RAM_POWERSET_S0RETENTION_Pos` (16). -/
def retainStep (sramBegin addr : Nat) : Nat × Nat × Nat :=
  let isLarge := sramBegin + SMALL_SECTION_SPAN ≤ addr
  let blockBase := if isLarge then sramBegin + SMALL_SECTION_SPAN else sramBegin
  let sectionSize := if isLarge then LARGE_SECTION_SIZE else SMALL_SECTION_SIZE
  let sectionsPerBlock := if isLarge then 16 else SMALL_SECTIONS_PER_BLOCK
  let blockBase0 : Nat := if isLarge then 8 else 0
  let sect0 := (addr - blockBase) / sectionSize
  let block :=
    if sectionsPerBlock ≤ sect0 then (blockBase0 + sect0 / sectionsPerBlock) % 256
    else blockBase0
  let sect := if sectionsPerBlock ≤ sect0 then sect0 % sectionsPerBlock else sect0
  let mask := 1 <<< (sect + 16)
  let next := (addr + (sectionSize - addr % sectionSize)) % W32
  (block, mask, next)

/-- The do-while loop of `ram_range_retain`, emitting one
`(block, section_mask)` pair per iteration.  The loop in C has no bound
of its own; the explicit fuel (instantiated with `len` by `map_range`,
an upper bound on the iteration count for any range that does not wrap)
makes the model total, `none` meaning the fuel ran out. -/
def retainLoop (sramBegin : Nat) : Nat → Nat → Nat → Option (List (Nat × Nat))
  | 0, _, _ => none
  | fuel + 1, addr, addrEnd =>
    match retainStep sramBegin addr with
    | (block, mask, next) =>
      if next < addrEnd then
        match retainLoop sramBegin fuel next addrEnd with
        | none => none
        | some rest => some ((block, mask) :: rest)
      else
        some [(block, mask)]

/-- Result of mapping a byte range to `(block, section_mask)` pairs. -/
inductive MapResult where
  | invalidRange : MapResult
  | ok : List (Nat × Nat) → MapResult
  | outOfFuel : MapResult
  deriving DecidableEq

/-- The section-mapping part of `ram_range_retain`: the bounds check
`(len == 0) || (addr < SRAM_BEGIN) || (addr > SRAM_END - len)` followed
by the section walk.  Emits the `(block, section_mask)` pairs in call
order. -/
def map_range (sramBegin sramEnd ptr len : Nat) : MapResult :=
  if len = 0 ∨ ptr < sramBegin ∨ wsub32 sramEnd len < ptr then .invalidRange
  else
    match retainLoop sramBegin len ptr ((ptr + len) % W32) with
    | none => .outOfFuel
    | some pairs => .ok pairs

/-- `ram_range_retain`: on a failed bounds check return `-EINVAL` (-22)
with no hardware calls; otherwise return 0 after one
`nrf_power_rampower_mask_on` (resp. `..._off`) call per walked section,
recorded as `(block, section_mask, enable)`. -/
def ram_range_retain (sramBegin sramEnd ptr len : Nat) (enable : Bool) :
    Option (Int × List (Nat × Nat × Bool)) :=
  match map_range sramBegin sramEnd ptr len with
  | .invalidRange => some (-22, [])
  | .ok pairs => some (0, pairs.map fun q => (q.1, q.2, enable))
  | .outOfFuel => none

/-! ## Claims about the integrity guard -/

/-- C6: for every buffer and valid checksum offset, `ram_retained_update`
computes CRC-32/ISO-HDLC over `bytes[0..checksum_offset]` only, stores
exactly the 4-byte little-endian result at
`bytes[checksum_offset..checksum_offset+4]`, and leaves
`bytes[0..checksum_offset]` (and the trailing bytes, hence the length)
unchanged. -/
theorem update_stores_crc_le (buf : List Nat) (off : Nat)
    (h : off + 4 ≤ buf.length) :
    (ram_retained_update buf off).take off = buf.take off ∧
    ((ram_retained_update buf off).drop off).take 4 =
      leBytes (crc32_ieee (buf.take off)) ∧
    (ram_retained_update buf off).drop (off + 4) = buf.drop (off + 4) ∧
    (ram_retained_update buf off).length = buf.length := by
  have hA : (buf.take off).length = off := List.length_take_of_le (by omega)
  have hlb : (leBytes (crc32_ieee (buf.take off))).length = 4 := rfl
  have hAl : (buf.take off ++ leBytes (crc32_ieee (buf.take off))).length = off + 4 := by
    rw [List.length_append, hA, hlb]
  unfold ram_retained_update
  refine ⟨?_, ?_, ?_, ?_⟩
  · rw [List.append_assoc, List.take_left' hA]
  · rw [List.append_assoc, List.drop_left' hA, List.take_left' hlb]
  · rw [List.drop_left' hAl]
  · rw [List.length_append, List.length_append, hA, hlb, List.length_drop]
    omega

/-- Witness for C6 at a concrete record. -/
theorem update_stores_crc_le_w :
    (ram_retained_update [1, 2, 3, 4, 9, 9, 9, 9] 4).take 4 =
        List.take 4 [1, 2, 3, 4, 9, 9, 9, 9] ∧
      ((ram_retained_update [1, 2, 3, 4, 9, 9, 9, 9] 4).drop 4).take 4 =
        leBytes (crc32_ieee (List.take 4 [1, 2, 3, 4, 9, 9, 9, 9])) ∧
      (ram_retained_update [1, 2, 3, 4, 9, 9, 9, 9] 4).drop (4 + 4) =
        List.drop (4 + 4) [1, 2, 3, 4, 9, 9, 9, 9] ∧
      (ram_retained_update [1, 2, 3, 4, 9, 9, 9, 9] 4).length =
        List.length [1, 2, 3, 4, 9, 9, 9, 9] :=
  update_stores_crc_le [1, 2, 3, 4, 9, 9, 9, 9] 4 (by decide)

/-- C2 counterexample: with record size 12 and checksum offset 4,
`ram_retained_validate` re-arms retention for only the first
`checksum_offset + sizeof_crc = 8` bytes, not the full 12-byte record as
the claim states. -/
theorem validate_rearm_not_full_range :
    (ram_retained_validate (List.replicate 12 0) 12 4 4).retainLen = 8 ∧
    (List.replicate 12 (0 : Nat)).length = 12 ∧ (8 : Nat) ≠ 12 := by decide

/-- C2 amended: in both the valid and the invalid outcome,
`ram_retained_validate` invokes `ram_range_retain` with `enable = true`
on the record's first `checksum_offset + sizeof_crc` bytes (which is the
full record range exactly when the checksum field ends the record). -/
theorem validate_rearms_checked_range (buf : List Nat) (size off sz : Nat) :
    (ram_retained_validate buf size off sz).retainLen = off + sz ∧
    (ram_retained_validate buf size off sz).retainEnable = true :=
  ⟨rfl, rfl⟩

/-- C4: `ram_retained_validate` returns `false` and zero-fills the whole
record when the CRC over the checked region misses the residue, and
returns `true` leaving the record untouched when it hits it. -/
theorem validate_reset_or_preserve (buf : List Nat) (off : Nat) :
    (crc32_ieee (buf.take (off + 4)) ≠ residue →
      (ram_retained_validate buf buf.length off 4).valid = false ∧
      (ram_retained_validate buf buf.length off 4).buf =
        List.replicate buf.length 0) ∧
    (crc32_ieee (buf.take (off + 4)) = residue →
      (ram_retained_validate buf buf.length off 4).valid = true ∧
      (ram_retained_validate buf buf.length off 4).buf = buf) := by
  unfold ram_retained_validate
  constructor
  · intro hne
    have hb : (crc32_ieee (buf.take (off + 4)) == residue) = false :=
      beq_eq_false_iff_ne.mpr hne
    simp [hb]
  · intro heq
    have hb : (crc32_ieee (buf.take (off + 4)) == residue) = true :=
      beq_iff_eq.mpr heq
    simp [hb]

/-- Witness for C4 at the all-zero 8-byte record (CRC misses the residue). -/
theorem validate_reset_or_preserve_w :
    (ram_retained_validate (List.replicate 8 0)
        (List.replicate 8 (0 : Nat)).length 4 4).valid = false ∧
      (ram_retained_validate (List.replicate 8 0)
        (List.replicate 8 (0 : Nat)).length 4 4).buf =
        List.replicate (List.replicate 8 (0 : Nat)).length 0 :=
  (validate_reset_or_preserve (List.replicate 8 0) 4).1 (by decide)

/-- C8, scenario A: on the all-zero 8-byte cold-boot record
(4-byte value, 4-byte checksum, offset 4) the checked region is all
8 bytes, its CRC misses the residue, `ram_retained_validate` returns
`false`, the buffer stays all zero, and retention is re-armed for the
8-byte range. -/
theorem validate_cold_boot :
    List.take (4 + 4) (List.replicate 8 (0 : Nat)) = List.replicate 8 0 ∧
    crc32_ieee (List.replicate 8 0) ≠ residue ∧
    ram_retained_validate (List.replicate 8 0) 8 4 4 =
      ⟨false, List.replicate 8 0, 8, true⟩ := by decide

/-- C3: round-trip — `ram_retained_update` followed immediately by
`ram_retained_validate` on the same record returns `true` and leaves
every byte of the (updated) buffer unmodified. -/
theorem update_then_validate (buf : List Nat) (off : Nat)
    (hoff : off + 4 ≤ buf.length) (hbytes : ∀ b ∈ buf, b < 256) :
    (ram_retained_validate (ram_retained_update buf off)
        buf.length off 4).valid = true ∧
    (ram_retained_validate (ram_retained_update buf off)
        buf.length off 4).buf = ram_retained_update buf off := by
  have hA : (buf.take off).length = off := List.length_take_of_le (by omega)
  have hAl : (buf.take off ++ leBytes (crc32_ieee (buf.take off))).length =
      off + 4 := by
    rw [List.length_append, hA]
    rfl
  have htake : (ram_retained_update buf off).take (off + 4) =
      buf.take off ++ leBytes (crc32_ieee (buf.take off)) := by
    unfold ram_retained_update
    rw [List.take_left' hAl]
  have hres : crc32_ieee ((ram_retained_update buf off).take (off + 4)) =
      residue := by
    rw [htake]
    exact crc32_append_self _ (fun b hb => hbytes b (List.mem_of_mem_take hb))
  have hb : (crc32_ieee ((ram_retained_update buf off).take (off + 4)) ==
      residue) = true := beq_iff_eq.mpr hres
  unfold ram_retained_validate
  simp [hb]

/-- Witness for C3 at the record with value bytes `[5,0,0,0]`. -/
theorem update_then_validate_w :
    (ram_retained_validate (ram_retained_update [5, 0, 0, 0, 0, 0, 0, 0] 4)
        (List.length [5, 0, 0, 0, 0, 0, 0, 0]) 4 4).valid = true ∧
    (ram_retained_validate (ram_retained_update [5, 0, 0, 0, 0, 0, 0, 0] 4)
        (List.length [5, 0, 0, 0, 0, 0, 0, 0]) 4 4).buf =
      ram_retained_update [5, 0, 0, 0, 0, 0, 0, 0] 4 :=
  update_then_validate [5, 0, 0, 0, 0, 0, 0, 0] 4 (by decide) (by decide)

/-- C7: idempotent re-validation — on a record whose checked region
already satisfies the residue check, `ram_retained_validate` returns
`true` twice in a row and never modifies the buffer. -/
theorem validate_idempotent (buf : List Nat) (size off : Nat)
    (hclean : crc32_ieee (buf.take (off + 4)) = residue) :
    (ram_retained_validate buf size off 4).valid = true ∧
    (ram_retained_validate buf size off 4).buf = buf ∧
    (ram_retained_validate
        (ram_retained_validate buf size off 4).buf size off 4).valid = true ∧
    (ram_retained_validate
        (ram_retained_validate buf size off 4).buf size off 4).buf = buf := by
  have hb : (crc32_ieee (buf.take (off + 4)) == residue) = true :=
    beq_iff_eq.mpr hclean
  unfold ram_retained_validate
  simp [hb]

/-- Witness for C7 at a freshly updated (hence clean) all-zero record. -/
theorem validate_idempotent_w :
    (ram_retained_validate (ram_retained_update (List.replicate 8 0) 4)
        8 4 4).valid = true ∧
    (ram_retained_validate (ram_retained_update (List.replicate 8 0) 4)
        8 4 4).buf = ram_retained_update (List.replicate 8 0) 4 ∧
    (ram_retained_validate
        (ram_retained_validate (ram_retained_update (List.replicate 8 0) 4)
          8 4 4).buf 8 4 4).valid = true ∧
    (ram_retained_validate
        (ram_retained_validate (ram_retained_update (List.replicate 8 0) 4)
          8 4 4).buf 8 4 4).buf = ram_retained_update (List.replicate 8 0) 4 :=
  validate_idempotent (ram_retained_update (List.replicate 8 0) 4) 8 4
    (by decide)

/-! ## Helper lemmas about the section walk -/

theorem retainLoop_succ (b fuel addr addrEnd : Nat) :
    retainLoop b (fuel + 1) addr addrEnd =
      (if (retainStep b addr).2.2 < addrEnd then
        match retainLoop b fuel (retainStep b addr).2.2 addrEnd with
        | none => none
        | some rest => some (((retainStep b addr).1, (retainStep b addr).2.1) :: rest)
      else some [((retainStep b addr).1, (retainStep b addr).2.1)]) := rfl

/-- The advance step: under no 32-bit wrap, one loop iteration strictly
increases the address by at most one large section. -/
theorem retainStep_next (b addr : Nat) (h : addr + LARGE_SECTION_SIZE < W32) :
    addr < (retainStep b addr).2.2 ∧
      (retainStep b addr).2.2 ≤ addr + LARGE_SECTION_SIZE := by
  unfold retainStep
  by_cases hL : b + SMALL_SECTION_SPAN ≤ addr <;>
    simp only [hL, if_true, if_false, LARGE_SECTION_SIZE, SMALL_SECTION_SIZE,
      W32, if_pos, if_neg, not_false_iff] <;>
    simp only [LARGE_SECTION_SIZE, W32] at h <;>
    omega

theorem retainLoop_some (b : Nat) : ∀ (fuel addr addrEnd : Nat),
    addr < addrEnd → addrEnd + LARGE_SECTION_SIZE ≤ W32 →
    addrEnd - addr ≤ fuel →
    ∃ pairs, retainLoop b fuel addr addrEnd = some pairs := by
  intro fuel
  induction fuel with
  | zero => intro addr addrEnd h1 _ h3; omega
  | succ fuel ih =>
    intro addr addrEnd h1 hcap h3
    have hwrap : addr + LARGE_SECTION_SIZE < W32 := by
      simp only [LARGE_SECTION_SIZE, W32] at hcap ⊢
      omega
    obtain ⟨hlt, hle⟩ := retainStep_next b addr hwrap
    rw [retainLoop_succ]
    by_cases hnext : (retainStep b addr).2.2 < addrEnd
    · obtain ⟨rest, hrest⟩ := ih (retainStep b addr).2.2 addrEnd hnext hcap (by omega)
      rw [if_pos hnext, hrest]
      exact ⟨_, rfl⟩
    · rw [if_neg hnext]
      exact ⟨_, rfl⟩

/-- For a nonempty range lying inside `[sramBegin, sramEnd)` (no 32-bit
wrap possible), the bounds check passes and the walk completes. -/
theorem map_range_ok (b e p l : Nat) (hl : 0 < l) (hbp : b ≤ p)
    (hpe : p + l ≤ e) (hcap : e + LARGE_SECTION_SIZE ≤ W32) :
    ∃ pairs, map_range b e p l = MapResult.ok pairs ∧
      retainLoop b l p (p + l) = some pairs := by
  have heW : e < W32 := by
    simp only [LARGE_SECTION_SIZE, W32] at hcap ⊢
    omega
  have hmod : (p + l) % W32 = p + l := Nat.mod_eq_of_lt (by omega)
  have hw : wsub32 e l = e - l := by
    simp only [wsub32, W32]
    simp only [W32] at heW
    omega
  have hcond : ¬ (l = 0 ∨ p < b ∨ wsub32 e l < p) := by
    rw [hw]
    push_neg
    refine ⟨by omega, by omega, by omega⟩
  obtain ⟨pairs, hloop⟩ := retainLoop_some b l p (p + l) (by omega) (by omega)
    (by omega)
  refine ⟨pairs, ?_, hloop⟩
  unfold map_range
  rw [if_neg hcond, hmod, hloop]

/-! ## Claims about `ram_range_retain` -/

/-- C5 (code bug): the bounds check `addr > SRAM_END - len` is computed
in 32-bit unsigned arithmetic, so for `len` large enough the subtraction
underflows and a range reaching far beyond the end of SRAM slips through:
with SRAM `[0x20000000, 0x20010000)`, `ptr = 0x20000000` and
`len = 0xFFFFFFFF` the mathematical range end exceeds `SRAM_END`, yet
`map_range` succeeds and `ram_range_retain` returns 0 after issuing a
hardware call — contradicting both the claim and the comment above the
check in the source. -/
theorem bounds_check_overflow_bug :
    (0x20000000 : Nat) + 0xFFFFFFFF > 0x20010000 ∧
    map_range 0x20000000 0x20010000 0x20000000 0xFFFFFFFF =
      MapResult.ok [(0, 65536)] ∧
    ram_range_retain 0x20000000 0x20010000 0x20000000 0xFFFFFFFF true =
      some (0, [(0, 65536, true)]) := by decide

/-- The non-overflowing part of C5: a range with `len = 0`, or
`begin < ram_begin`, or `begin + len > ram_end` where the unsigned
computation `ram_end - len` does not underflow (`len ≤ ram_end`), is
rejected by `map_range` with `InvalidRange`, and `ram_range_retain`
returns `-EINVAL` for both enable values without recording any hardware
call. -/
theorem bounds_rejected_without_hw_calls (b e p l : Nat) (he : e < W32)
    (hl : l < W32) (h : l = 0 ∨ p < b ∨ (l ≤ e ∧ e < p + l)) :
    map_range b e p l = MapResult.invalidRange ∧
    ram_range_retain b e p l true = some (-22, []) ∧
    ram_range_retain b e p l false = some (-22, []) := by
  have hcond : l = 0 ∨ p < b ∨ wsub32 e l < p := by
    rcases h with h | h | ⟨h1, h2⟩
    · exact Or.inl h
    · exact Or.inr (Or.inl h)
    · refine Or.inr (Or.inr ?_)
      have hw : wsub32 e l = e - l := by
        simp only [wsub32, W32] at *
        omega
      omega
  have hmr : map_range b e p l = MapResult.invalidRange := by
    unfold map_range
    rw [if_pos hcond]
  refine ⟨hmr, ?_, ?_⟩ <;> (unfold ram_range_retain; rw [hmr])

/-- Witness for the rejection lemma at an empty range. -/
theorem bounds_rejected_without_hw_calls_w :
    map_range 0x20000000 0x20040000 0x20006000 0 = MapResult.invalidRange ∧
    ram_range_retain 0x20000000 0x20040000 0x20006000 0 true =
      some (-22, []) ∧
    ram_range_retain 0x20000000 0x20040000 0x20006000 0 false =
      some (-22, []) :=
  bounds_rejected_without_hw_calls 0x20000000 0x20040000 0x20006000 0
    (by decide) (by decide) (Or.inl rfl)

/-- C9: for every range that passes the bounds check (nonempty and fully
inside SRAM, which itself must fit below `2^32` with one large section
of headroom), each iteration strictly increases the current address, and
the section walk reaches the end of the range within `len` iterations. -/
theorem retain_walk_terminates (b e p l : Nat) (hl : 0 < l) (_hbp : b ≤ p)
    (hpe : p + l ≤ e) (hcap : e + LARGE_SECTION_SIZE ≤ W32) :
    (∀ addr, addr < e → addr < (retainStep b addr).2.2) ∧
    ∃ pairs, retainLoop b l p ((p + l) % W32) = some pairs := by
  constructor
  · intro addr haddr
    refine (retainStep_next b addr ?_).1
    simp only [LARGE_SECTION_SIZE, W32] at hcap ⊢
    omega
  · have hmod : (p + l) % W32 = p + l := by
      apply Nat.mod_eq_of_lt
      simp only [LARGE_SECTION_SIZE, W32] at hcap ⊢
      omega
    rw [hmod]
    exact retainLoop_some b l p (p + l) (by omega) (by omega) (by omega)

/-- Witness for C9 on a concrete in-bounds range. -/
theorem retain_walk_terminates_w :
    (0x20006000 : Nat) < (retainStep 0x20000000 0x20006000).2.2 ∧
    ∃ pairs, retainLoop 0x20000000 8192 0x20006000
      ((0x20006000 + 8192) % W32) = some pairs :=
  ⟨(retain_walk_terminates 0x20000000 0x20040000 0x20006000 8192 (by decide)
      (by decide) (by decide) (by decide)).1 0x20006000 (by decide),
   (retain_walk_terminates 0x20000000 0x20040000 0x20006000 8192 (by decide)
      (by decide) (by decide) (by decide)).2⟩

/-- C10: for every valid in-bounds range, enabling and disabling traverse
the same addresses and compute the identical `(block, section_mask)`
sequence, differing only in the recorded enable flag, and both calls
return 0. -/
theorem retain_enable_disable_symm (b e p l : Nat) (hl : 0 < l) (hbp : b ≤ p)
    (hpe : p + l ≤ e) (hcap : e + LARGE_SECTION_SIZE ≤ W32) :
    ∃ pairs, map_range b e p l = MapResult.ok pairs ∧
      ram_range_retain b e p l true =
        some (0, pairs.map fun q => (q.1, q.2, true)) ∧
      ram_range_retain b e p l false =
        some (0, pairs.map fun q => (q.1, q.2, false)) := by
  obtain ⟨pairs, hmr, _⟩ := map_range_ok b e p l hl hbp hpe hcap
  refine ⟨pairs, hmr, ?_, ?_⟩ <;> (unfold ram_range_retain; rw [hmr])

/-- Witness for C10 on the range crossing from block 7 into the large
block. -/
theorem retain_enable_disable_symm_w :
    ∃ pairs, map_range 0x20000000 0x20040000 0x2000F000 8192 =
        MapResult.ok pairs ∧
      ram_range_retain 0x20000000 0x20040000 0x2000F000 8192 true =
        some (0, pairs.map fun q => (q.1, q.2, true)) ∧
      ram_range_retain 0x20000000 0x20040000 0x2000F000 8192 false =
        some (0, pairs.map fun q => (q.1, q.2, false)) :=
  retain_enable_disable_symm 0x20000000 0x20040000 0x2000F000 8192
    (by decide) (by decide) (by decide) (by decide)

/-- Every hardware call of the walk carries a single-bit retention mask:
bit `section + 16` for some section index below 16. -/
theorem retainStep_mask (b addr : Nat) :
    ∃ i, i < 16 ∧ (retainStep b addr).2.1 = 2 ^ (i + 16) := by
  simp only [retainStep, SMALL_SECTION_SPAN, SMALL_BLOCK_SIZE, SMALL_BLOCK_COUNT,
    SMALL_SECTIONS_PER_BLOCK, SMALL_SECTION_SIZE, LARGE_SECTION_SIZE,
    Nat.one_shiftLeft]
  split_ifs with hL h16 h2
  · exact ⟨(addr - (b + 8 * (2 * 4096))) / 32768 % 16, by omega, rfl⟩
  · exact ⟨(addr - (b + 8 * (2 * 4096))) / 32768, by omega, rfl⟩
  · exact ⟨(addr - b) / 4096 % 2, by omega, rfl⟩
  · exact ⟨(addr - b) / 4096, by omega, rfl⟩

/-- Within one full span of the topology (eight small blocks followed by
one 16-section large block) the computed block index is monotone in the
address. -/
theorem retainStep_block_mono (b a a' : Nat) (hb : b ≤ a) (haa : a ≤ a')
    (hcap : a' < b + 589824) :
    (retainStep b a).1 ≤ (retainStep b a').1 := by
  simp only [retainStep, SMALL_SECTION_SPAN, SMALL_BLOCK_SIZE, SMALL_BLOCK_COUNT,
    SMALL_SECTIONS_PER_BLOCK, SMALL_SECTION_SIZE, LARGE_SECTION_SIZE]
  split_ifs <;> omega

/-- Every pair emitted by the walk carries a single-bit mask. -/
theorem retainLoop_masks (b : Nat) :
    ∀ (fuel addr addrEnd : Nat) (pairs : List (Nat × Nat)),
    retainLoop b fuel addr addrEnd = some pairs →
    ∀ q ∈ pairs, ∃ i, i < 16 ∧ q.2 = 2 ^ (i + 16) := by
  intro fuel
  induction fuel with
  | zero => intro addr addrEnd pairs h; simp [retainLoop] at h
  | succ fuel ih =>
    intro addr addrEnd pairs h
    rw [retainLoop_succ] at h
    by_cases hnext : (retainStep b addr).2.2 < addrEnd
    · rw [if_pos hnext] at h
      cases hrec : retainLoop b fuel (retainStep b addr).2.2 addrEnd with
      | none => rw [hrec] at h; exact absurd h (by simp)
      | some rest =>
        rw [hrec] at h
        injection h with hp
        subst hp
        intro q hq
        rcases List.mem_cons.mp hq with hq | hq
        · subst hq
          exact retainStep_mask b addr
        · exact ih _ _ _ hrec q hq
    · rw [if_neg hnext] at h
      injection h with hp
      subst hp
      intro q hq
      have hq' : q = ((retainStep b addr).1, (retainStep b addr).2.1) :=
        List.mem_singleton.mp hq
      subst hq'
      exact retainStep_mask b addr

/-- The walk emits its pairs in nondecreasing block order, and the first
pair belongs to the block of the start address. -/
theorem retainLoop_chain (b : Nat) :
    ∀ (fuel addr addrEnd : Nat) (pairs : List (Nat × Nat)),
    retainLoop b fuel addr addrEnd = some pairs →
    b ≤ addr → addr < addrEnd → addrEnd ≤ b + 589824 →
    addrEnd + LARGE_SECTION_SIZE ≤ W32 →
    List.Chain' (fun q r => q.1 ≤ r.1) pairs ∧
    pairs.head?.map Prod.fst = some (retainStep b addr).1 := by
  intro fuel
  induction fuel with
  | zero => intro addr addrEnd pairs h _ _ _ _; simp [retainLoop] at h
  | succ fuel ih =>
    intro addr addrEnd pairs h hba hlt hcapA hcapW
    have hwrap : addr + LARGE_SECTION_SIZE < W32 := by
      simp only [LARGE_SECTION_SIZE, W32] at hcapW ⊢
      omega
    obtain ⟨hnlt, _⟩ := retainStep_next b addr hwrap
    rw [retainLoop_succ] at h
    by_cases hnext : (retainStep b addr).2.2 < addrEnd
    · rw [if_pos hnext] at h
      cases hrec : retainLoop b fuel (retainStep b addr).2.2 addrEnd with
      | none => rw [hrec] at h; exact absurd h (by simp)
      | some rest =>
        rw [hrec] at h
        injection h with hp
        subst hp
        obtain ⟨hchain, hhead⟩ := ih (retainStep b addr).2.2 addrEnd rest hrec
          (by omega) hnext hcapA hcapW
        refine ⟨List.chain'_cons'.mpr ⟨?_, hchain⟩, rfl⟩
        intro y hy
        cases hh : rest.head? with
        | none => rw [hh] at hy; exact absurd hy (by simp)
        | some z =>
          rw [hh] at hy hhead
          have hzy : z = y := by simpa using hy
          have hz1 : z.1 = (retainStep b (retainStep b addr).2.2).1 := by
            simpa using hhead
          have hy1 : y.1 = (retainStep b (retainStep b addr).2.2).1 := by
            rw [← hzy]; exact hz1
          show ((retainStep b addr).1, (retainStep b addr).2.1).1 ≤ y.1
          rw [hy1]
          exact retainStep_block_mono b addr (retainStep b addr).2.2 hba
            (Nat.le_of_lt hnlt) (by omega)
    · rw [if_neg hnext] at h
      injection h with hp
      subst hp
      exact ⟨List.chain'_singleton _, rfl⟩

/-- Inversion of a successful `map_range`. -/
theorem map_range_ok_inv (b e p l : Nat) (pairs : List (Nat × Nat))
    (h : map_range b e p l = MapResult.ok pairs) :
    retainLoop b l p ((p + l) % W32) = some pairs := by
  unfold map_range at h
  by_cases hc : l = 0 ∨ p < b ∨ wsub32 e l < p
  · rw [if_pos hc] at h
    exact absurd h (by simp)
  · rw [if_neg hc] at h
    cases hrec : retainLoop b l p ((p + l) % W32) with
    | none => rw [hrec] at h; exact absurd h (by simp)
    | some ps =>
      rw [hrec] at h
      injection h with hp
      rw [hp]

/-- C1 counterexample: on the geometry `small_section_size = 4096`,
`sections_per_small_block = 2`, `small_block_count = 8` (SRAM at
`[0x20000000, 0x20040000)`), the range covering both sections of small
block 3 yields TWO single-bit pairs for block 3 — the walk issues one
hardware call per section and never merges contiguous sections of a
block into one multi-bit mask, contrary to the claim of exactly one
`(block = 3, 2-bit mask)` pair. -/
theorem map_range_block3_not_merged :
    map_range 0x20000000 0x20040000 0x20006000 8192 =
      MapResult.ok [(3, 65536), (3, 131072)] ∧
    MapResult.ok [((3 : Nat), (65536 : Nat)), (3, 131072)] ≠
      MapResult.ok [((3 : Nat), (196608 : Nat))] ∧
    ([((3 : Nat), (65536 : Nat)), (3, 131072)]).length ≠ 1 := by decide

/-- C1 amended: the walk emits exactly one single-bit
`(block, section_mask)` pair per section it visits, in nondecreasing
block order; on the stated geometry, the range spanning both sections of
small block 3 produces exactly the two pairs `(3, bit 16)` and
`(3, bit 17)`, and the range crossing from block 7 into the terminal
large block produces exactly two pairs, one per block. -/
theorem map_range_per_section :
    map_range 0x20000000 0x20040000 0x20006000 8192 =
      MapResult.ok [(3, 65536), (3, 131072)] ∧
    map_range 0x20000000 0x20040000 0x2000F000 8192 =
      MapResult.ok [(7, 131072), (8, 65536)] ∧
    (∀ (b fuel addr addrEnd : Nat) (pairs : List (Nat × Nat)),
      retainLoop b fuel addr addrEnd = some pairs →
      ∀ q ∈ pairs, ∃ i, i < 16 ∧ q.2 = 2 ^ (i + 16)) ∧
    (∀ (b e p l : Nat) (pairs : List (Nat × Nat)),
      0 < l → b ≤ p → p + l ≤ e → e ≤ b + 589824 →
      e + LARGE_SECTION_SIZE ≤ W32 →
      map_range b e p l = MapResult.ok pairs →
      List.Chain' (fun q r => q.1 ≤ r.1) pairs) := by
  refine ⟨by decide, by decide,
    fun b fuel addr addrEnd pairs h => retainLoop_masks b fuel addr addrEnd pairs h,
    ?_⟩
  intro b e p l pairs hl hbp hpe hcap hW hmr
  have hloop := map_range_ok_inv b e p l pairs hmr
  have hW' : e + 32768 ≤ 4294967296 := by
    simpa [LARGE_SECTION_SIZE, W32] using hW
  have hmod : (p + l) % W32 = p + l := by
    apply Nat.mod_eq_of_lt
    simp only [W32]
    omega
  rw [hmod] at hloop
  refine (retainLoop_chain b l p (p + l) pairs hloop hbp (by omega) (by omega)
    ?_).1
  simp only [LARGE_SECTION_SIZE, W32]
  omega

/-- Witness for C1 (amended): the single-bit and block-order properties
evaluated on the concrete block-3 range. -/
theorem map_range_per_section_w :
    (∀ q ∈ [((3 : Nat), (65536 : Nat)), (3, 131072)],
      ∃ i, i < 16 ∧ q.2 = 2 ^ (i + 16)) ∧
    List.Chain' (fun q r => q.1 ≤ r.1)
      [((3 : Nat), (65536 : Nat)), (3, 131072)] :=
  ⟨map_range_per_section.2.2.1 0x20000000 8192 0x20006000
      ((0x20006000 + 8192) % W32) [(3, 65536), (3, 131072)] (by decide),
   map_range_per_section.2.2.2 0x20000000 0x20040000 0x20006000 8192
      [(3, 65536), (3, 131072)] (by decide) (by decide) (by decide) (by decide)
      (by decide) (by decide)⟩
